import Mathlib

/-!
Shallow embedding of the menu resolver of `src/src/main.rs` (blaunch2).

Strings are modelled as `List Char` (Rust `String` / `&str`): `starts_with`
becomes `List.isPrefixOf`, `chars().skip(k).collect()` becomes `List.drop k`,
and `len()` becomes `List.length` (the shortcuts the program matches are
plain ASCII tokens, for which byte length and character count coincide).
Rust references (`&Node`) are modelled by values, so a `Vec<&'a Node>` is a
`List Node`.
-/

/-- `struct Node` of main.rs: one entry of the menu hierarchy, with fields
`shortcut`, `description`, `command` and `children`. -/
inductive Node : Type where
  | mk : List Char → List Char → Option (List Char) → Option (List Node) → Node

/-- Field `shortcut` of `Node`. -/
def Node.shortcut : Node → List Char
  | .mk s _ _ _ => s

/-- Field `description` of `Node`. -/
def Node.description : Node → List Char
  | .mk _ d _ _ => d

/-- Field `command` of `Node`. -/
def Node.command : Node → Option (List Char)
  | .mk _ _ c _ => c

/-- Field `children` of `Node`. -/
def Node.children : Node → Option (List Node)
  | .mk _ _ _ c => c

/-- `fn borrow_nodes(nodes: &Vec<Node>) -> Vec<&Node>` of main.rs: pushes a
reference to each node, in order, into a fresh vector.  With references
modelled by values this collects exactly the input list. -/
def borrow_nodes (nodes : List Node) : List Node := nodes

/-- `enum Resolved` of main.rs. -/
inductive Resolved : Type where
  | Partial : List Node → Resolved
  | Complete : Node → Resolved

mutual

/-- `fn resolve(nodes: Vec<&Node>, command: String) -> Resolved` of main.rs.
The `for` loop with its accumulating `partial` vector and early returns is
expressed as the tail-recursive helper `resolveGo`. -/
def resolve (nodes : List Node) (command : List Char) : Resolved :=
  if command.length = 0 then
    Resolved.Partial nodes
  else
    resolveGo nodes command []
termination_by 2 * sizeOf nodes + 1
decreasing_by
  omega

/-- The body of the `for n in nodes` loop of `resolve`, with `acc` the
`partial` accumulator built so far. -/
def resolveGo (nodes : List Node) (command : List Char) (acc : List Node) :
    Resolved :=
  match nodes with
  | [] => Resolved.Partial acc
  | n :: rest =>
    -- if n.shortcut.as_str().starts_with(command.as_str()) { partial.push(n); }
    let acc' := if command.isPrefixOf n.shortcut then acc ++ [n] else acc
    -- if !command.as_str().starts_with(n.shortcut.as_str()) { continue; }
    if ¬ (n.shortcut.isPrefixOf command) then
      resolveGo rest command acc'
    else
      -- let remaining = command.chars().skip(n.shortcut.len()).collect();
      let remaining : List Char := command.drop n.shortcut.length
      -- if remaining.len() == 0 && n.children == None { return Complete(n); }
      if remaining.length == 0 && n.children.isNone then
        Resolved.Complete n
      -- if remaining.len() == 0 { return match n.children {...}; }
      else if remaining.length == 0 then
        match n.children with
        | some c => Resolved.Partial (borrow_nodes c)
        | none => Resolved.Complete n
      -- return match n.children { Some(c) => resolve(..), None => Partial(vec![]) };
      else
        match h : n.children with
        | some c => resolve (borrow_nodes c) remaining
        | none => Resolved.Partial []
termination_by 2 * sizeOf nodes
decreasing_by
  · simp
  · simp [borrow_nodes]
    cases n with
    | mk s d cm ch =>
      simp [Node.children] at h
      subst h
      simp
      omega

end

mutual

/-- Variant of `resolve` used to analyse the `None => Resolved::Complete(n)`
arm of the second `match` in main.rs: it is identical to `resolve` except
that this one arm returns `Partial(vec![])` instead.  Extensional equality
with `resolve` shows that arm can never fire (its two results are values of
different constructors, so any execution reaching it would distinguish the
two functions). -/
def resolveAlt (nodes : List Node) (command : List Char) : Resolved :=
  if command.length = 0 then
    Resolved.Partial nodes
  else
    resolveGoAlt nodes command []
termination_by 2 * sizeOf nodes + 1
decreasing_by
  omega

/-- Loop body of `resolveAlt`; differs from `resolveGo` only in the arm
marked below. -/
def resolveGoAlt (nodes : List Node) (command : List Char) (acc : List Node) :
    Resolved :=
  match nodes with
  | [] => Resolved.Partial acc
  | n :: rest =>
    let acc' := if command.isPrefixOf n.shortcut then acc ++ [n] else acc
    if ¬ (n.shortcut.isPrefixOf command) then
      resolveGoAlt rest command acc'
    else
      let remaining : List Char := command.drop n.shortcut.length
      if remaining.length == 0 && n.children.isNone then
        Resolved.Complete n
      else if remaining.length == 0 then
        match n.children with
        | some c => Resolved.Partial (borrow_nodes c)
        | none => Resolved.Partial []   -- the arm under scrutiny, made observable
      else
        match h : n.children with
        | some c => resolveAlt (borrow_nodes c) remaining
        | none => Resolved.Partial []
termination_by 2 * sizeOf nodes
decreasing_by
  · simp
  · simp [borrow_nodes]
    cases n with
    | mk s d cm ch =>
      simp [Node.children] at h
      subst h
      simp
      omega

end

/-! Concrete nodes: the forest built by `test_data()` in the `tests` module
of main.rs, plus a few nodes used for counterexamples and witnesses. -/

/-- The `chrome` leaf of `test_data()` in main.rs. -/
def chromeNode : Node :=
  Node.mk "chrome".toList "Google Chrome".toList (some "chromium".toList) none

/-- The `firefox` leaf of `test_data()` in main.rs. -/
def firefoxNode : Node :=
  Node.mk "firefox".toList "Mozilla FireFox".toList (some "firefox".toList) none

/-- The `web` group of `test_data()` in main.rs. -/
def webNode : Node :=
  Node.mk "web".toList "web browsers".toList none (some [chromeNode, firefoxNode])

/-- The `terminal` leaf of `test_data()` in main.rs. -/
def terminalNode : Node :=
  Node.mk "terminal".toList "terminal emulator".toList
    (some "xfce4-terminal".toList) none

/-- The forest returned by `test_data()` in main.rs. -/
def test_data : List Node := [terminalNode, webNode]

/-- Counterexample leaf with shortcut `"a"`. -/
def cexLeafA : Node := Node.mk ['a'] [] (some ['a']) none

/-- Counterexample leaf with shortcut `"b"`. -/
def cexLeafB : Node := Node.mk ['b'] [] (some ['b']) none

/-- Counterexample group with shortcut `"a"`, same shortcut as `cexLeafA`. -/
def cexGroupA : Node := Node.mk ['a'] [] none (some [cexLeafB])

/-- Counterexample leaf with shortcut `"ab"`, extending `cexLeafA`. -/
def cexLeafAB : Node := Node.mk ['a', 'b'] [] (some ['a', 'b']) none

/-- Counterexample leaf with shortcut `"abc"`. -/
def cexLeafABC : Node := Node.mk ['a', 'b', 'c'] [] (some ['a', 'b', 'c']) none

/-- Counterexample leaf with an empty shortcut (excluded by the spec's data
model, not rejected by the code). -/
def cexLeafEmpty : Node := Node.mk [] [] (some ['x']) none

/-! Structural lemmas about one pass of the `for` loop. -/

theorem resolve_of_ne_nil (nodes : List Node) (cmd : List Char) (h : cmd ≠ []) :
    resolve nodes cmd = resolveGo nodes cmd [] := by
  rw [resolve]
  simp [List.length_eq_zero, h]

theorem resolveGo_nil (cmd : List Char) (acc : List Node) :
    resolveGo [] cmd acc = Resolved.Partial acc := by
  rw [resolveGo]

theorem resolveGo_cons_skip (n : Node) (rest : List Node) (cmd : List Char)
    (acc : List Node) (h : ¬ n.shortcut.isPrefixOf cmd) :
    resolveGo (n :: rest) cmd acc =
      resolveGo rest cmd (if cmd.isPrefixOf n.shortcut then acc ++ [n] else acc) := by
  rw [resolveGo]
  simp [h]

theorem resolveGo_skip_all (pre rest : List Node) (cmd : List Char) (acc : List Node)
    (h : ∀ m ∈ pre, ¬ m.shortcut.isPrefixOf cmd) :
    resolveGo (pre ++ rest) cmd acc =
      resolveGo rest cmd (acc ++ pre.filter (fun m => cmd.isPrefixOf m.shortcut)) := by
  induction pre generalizing acc with
  | nil => simp
  | cons m pre ih =>
    rw [List.cons_append, resolveGo_cons_skip m (pre ++ rest) cmd acc (h m (by simp))]
    rw [ih _ (fun x hx => h x (by simp [hx]))]
    by_cases hm : cmd.isPrefixOf m.shortcut
    · simp [hm, List.filter_cons]
    · simp [hm, List.filter_cons]

theorem resolveGo_no_consume (nodes : List Node) (cmd : List Char) (acc : List Node)
    (h : ∀ m ∈ nodes, ¬ m.shortcut.isPrefixOf cmd) :
    resolveGo nodes cmd acc =
      Resolved.Partial (acc ++ nodes.filter (fun m => cmd.isPrefixOf m.shortcut)) := by
  have := resolveGo_skip_all nodes [] cmd acc h
  simpa [resolveGo_nil] using this

theorem resolveGo_consumed_leaf_exact (n : Node) (post : List Node) (cmd : List Char)
    (acc : List Node) (hn : n.shortcut.isPrefixOf cmd)
    (hdrop : cmd.drop n.shortcut.length = []) (hch : n.children = none) :
    resolveGo (n :: post) cmd acc = Resolved.Complete n := by
  rw [resolveGo]
  simp [hn, hdrop, hch]

theorem resolveGo_consumed_group_exact (n : Node) (post : List Node) (cmd : List Char)
    (acc : List Node) (c : List Node) (hn : n.shortcut.isPrefixOf cmd)
    (hdrop : cmd.drop n.shortcut.length = []) (hch : n.children = some c) :
    resolveGo (n :: post) cmd acc = Resolved.Partial c := by
  rw [resolveGo]
  simp [hn, hdrop, hch, borrow_nodes]

theorem resolveGo_consumed_group_more (n : Node) (post : List Node) (cmd : List Char)
    (acc : List Node) (c : List Node) (hn : n.shortcut.isPrefixOf cmd)
    (hdrop : cmd.drop n.shortcut.length ≠ []) (hch : n.children = some c) :
    resolveGo (n :: post) cmd acc = resolve c (cmd.drop n.shortcut.length) := by
  rw [resolveGo]
  have hlt : ¬ cmd.length ≤ n.shortcut.length := fun hle => hdrop (List.drop_eq_nil_of_le hle)
  simp [hn, hch, borrow_nodes, Nat.sub_eq_zero_iff_le, hlt]
  split <;> simp_all

theorem resolveGo_consumed_leaf_more (n : Node) (post : List Node) (cmd : List Char)
    (acc : List Node) (hn : n.shortcut.isPrefixOf cmd)
    (hdrop : cmd.drop n.shortcut.length ≠ []) (hch : n.children = none) :
    resolveGo (n :: post) cmd acc = Resolved.Partial [] := by
  rw [resolveGo]
  have hlt : ¬ cmd.length ≤ n.shortcut.length := fun hle => hdrop (List.drop_eq_nil_of_le hle)
  simp [hn, Nat.sub_eq_zero_iff_le, hlt]
  split <;> simp_all

theorem resolveGo_consumed_indep (n : Node) (post₁ post₂ : List Node) (cmd : List Char)
    (acc₁ acc₂ : List Node) (hn : n.shortcut.isPrefixOf cmd) :
    resolveGo (n :: post₁) cmd acc₁ = resolveGo (n :: post₂) cmd acc₂ := by
  rw [resolveGo, resolveGo]
  simp [hn]

theorem resolveAlt_of_ne_nil (nodes : List Node) (cmd : List Char) (h : cmd ≠ []) :
    resolveAlt nodes cmd = resolveGoAlt nodes cmd [] := by
  rw [resolveAlt]
  simp [List.length_eq_zero, h]

theorem resolveGoAlt_nil (cmd : List Char) (acc : List Node) :
    resolveGoAlt [] cmd acc = Resolved.Partial acc := by
  rw [resolveGoAlt]

theorem resolveGoAlt_cons_skip (n : Node) (rest : List Node) (cmd : List Char)
    (acc : List Node) (h : ¬ n.shortcut.isPrefixOf cmd) :
    resolveGoAlt (n :: rest) cmd acc =
      resolveGoAlt rest cmd (if cmd.isPrefixOf n.shortcut then acc ++ [n] else acc) := by
  rw [resolveGoAlt]
  simp [h]

theorem resolveGoAlt_consumed_leaf_exact (n : Node) (post : List Node) (cmd : List Char)
    (acc : List Node) (hn : n.shortcut.isPrefixOf cmd)
    (hdrop : cmd.drop n.shortcut.length = []) (hch : n.children = none) :
    resolveGoAlt (n :: post) cmd acc = Resolved.Complete n := by
  rw [resolveGoAlt]
  simp [hn, hdrop, hch]

theorem resolveGoAlt_consumed_group_exact (n : Node) (post : List Node) (cmd : List Char)
    (acc : List Node) (c : List Node) (hn : n.shortcut.isPrefixOf cmd)
    (hdrop : cmd.drop n.shortcut.length = []) (hch : n.children = some c) :
    resolveGoAlt (n :: post) cmd acc = Resolved.Partial c := by
  rw [resolveGoAlt]
  simp [hn, hdrop, hch, borrow_nodes]

theorem resolveGoAlt_consumed_group_more (n : Node) (post : List Node) (cmd : List Char)
    (acc : List Node) (c : List Node) (hn : n.shortcut.isPrefixOf cmd)
    (hdrop : cmd.drop n.shortcut.length ≠ []) (hch : n.children = some c) :
    resolveGoAlt (n :: post) cmd acc = resolveAlt c (cmd.drop n.shortcut.length) := by
  rw [resolveGoAlt]
  have hlt : ¬ cmd.length ≤ n.shortcut.length := fun hle => hdrop (List.drop_eq_nil_of_le hle)
  simp [hn, hch, borrow_nodes, Nat.sub_eq_zero_iff_le, hlt]
  split <;> simp_all

theorem resolveGoAlt_consumed_leaf_more (n : Node) (post : List Node) (cmd : List Char)
    (acc : List Node) (hn : n.shortcut.isPrefixOf cmd)
    (hdrop : cmd.drop n.shortcut.length ≠ []) (hch : n.children = none) :
    resolveGoAlt (n :: post) cmd acc = Resolved.Partial [] := by
  rw [resolveGoAlt]
  have hlt : ¬ cmd.length ≤ n.shortcut.length := fun hle => hdrop (List.drop_eq_nil_of_le hle)
  simp [hn, Nat.sub_eq_zero_iff_le, hlt]
  split <;> simp_all

theorem resolveGo_eq_alt_aux (k : Nat) :
    ∀ nodes cmd acc, sizeOf nodes < k → resolveGo nodes cmd acc = resolveGoAlt nodes cmd acc := by
  induction k with
  | zero =>
    intro nodes cmd acc h
    omega
  | succ k ih =>
    intro nodes cmd acc h
    match nodes with
    | [] => rw [resolveGo_nil, resolveGoAlt_nil]
    | n :: rest =>
      have hrest : sizeOf rest < k := by
        simp at h
        omega
      by_cases hn : n.shortcut.isPrefixOf cmd
      · cases hch : n.children with
        | none =>
          by_cases hd : cmd.drop n.shortcut.length = []
          · rw [resolveGo_consumed_leaf_exact n rest cmd acc hn hd hch,
              resolveGoAlt_consumed_leaf_exact n rest cmd acc hn hd hch]
          · rw [resolveGo_consumed_leaf_more n rest cmd acc hn hd hch,
              resolveGoAlt_consumed_leaf_more n rest cmd acc hn hd hch]
        | some c =>
          have hc : sizeOf c < k := by
            cases n with
            | mk s d cm ch =>
              simp [Node.children] at hch
              subst hch
              simp at h
              omega
          by_cases hd : cmd.drop n.shortcut.length = []
          · rw [resolveGo_consumed_group_exact n rest cmd acc c hn hd hch,
              resolveGoAlt_consumed_group_exact n rest cmd acc c hn hd hch]
          · rw [resolveGo_consumed_group_more n rest cmd acc c hn hd hch,
              resolveGoAlt_consumed_group_more n rest cmd acc c hn hd hch,
              resolve_of_ne_nil c _ hd, resolveAlt_of_ne_nil c _ hd]
            exact ih c _ [] hc
      · rw [resolveGo_cons_skip n rest cmd acc hn, resolveGoAlt_cons_skip n rest cmd acc hn]
        exact ih rest cmd _ hrest

/-- C1: for every forest and input `s ++ rest` with `rest` non-empty, if the
first candidate whose shortcut is a prefix of the input is `n` with
`n.shortcut = s` and children `c`, then `resolve` recurses: it equals
`resolve c rest`, where `rest` is the input with the shortcut's length
stripped from the front. -/
theorem resolve_first_consumed_group_recurses (pre post : List Node) (n : Node)
    (c : List Node) (s rest : List Char) (hrest : rest ≠ [])
    (hpre : ∀ m ∈ pre, ¬ m.shortcut.isPrefixOf (s ++ rest))
    (hs : n.shortcut = s) (hc : n.children = some c) :
    resolve (pre ++ n :: post) (s ++ rest) = resolve c rest := by
  have hne : s ++ rest ≠ [] := by simp [hrest]
  rw [resolve_of_ne_nil _ _ hne, resolveGo_skip_all pre (n :: post) _ _ hpre]
  have hn : n.shortcut.isPrefixOf (s ++ rest) := by
    rw [hs]
    exact List.isPrefixOf_iff_prefix.mpr (List.prefix_append s rest)
  have hdrop : (s ++ rest).drop n.shortcut.length = rest := by
    rw [hs]
    exact List.drop_left s rest
  rw [resolveGo_consumed_group_more n post _ _ c hn (by rw [hdrop]; exact hrest) hc, hdrop]

theorem resolve_first_consumed_group_recurses_witness :
    resolve [terminalNode, webNode] ("web".toList ++ "firefox".toList) =
      resolve [chromeNode, firefoxNode] "firefox".toList := by
  exact resolve_first_consumed_group_recurses [terminalNode] [] webNode
    [chromeNode, firefoxNode] "web".toList "firefox".toList (by decide) (by decide) rfl rfl

/-- C2: for every forest and input, `resolve` is a total function returning
exactly one `Resolved` value, either `Partial` or `Complete`; it has no
failure outcome. -/
theorem resolve_total_exactly_one_variant (nodes : List Node) (cmd : List Char) :
    (∃ ns, resolve nodes cmd = Resolved.Partial ns) ∨
      (∃ n, resolve nodes cmd = Resolved.Complete n) := by
  cases h : resolve nodes cmd with
  | Partial ns => exact Or.inl ⟨ns, rfl⟩
  | Complete n => exact Or.inr ⟨n, rfl⟩

/-- C3 (counterexample): with a leaf and a group sharing shortcut `"a"`, the
input `"a"` — exactly the group's shortcut — resolves to `Complete` for the
leaf, not to `Partial` over the group's children, refuting the claim for
arbitrary forests. -/
theorem resolve_group_exact_shortcut_cex :
    cexGroupA.children = some [cexLeafB] ∧
      resolve [cexLeafA, cexGroupA] cexGroupA.shortcut = Resolved.Complete cexLeafA ∧
      resolve [cexLeafA, cexGroupA] cexGroupA.shortcut ≠ Resolved.Partial [cexLeafB] := by
  have h1 : resolve [cexLeafA, cexGroupA] cexGroupA.shortcut = Resolved.Complete cexLeafA := by
    simp [resolve, resolveGo, cexLeafA, cexGroupA, Node.shortcut, Node.children,
      List.isPrefixOf]
  refine ⟨rfl, h1, ?_⟩
  rw [h1]
  exact fun hcon => Resolved.noConfusion hcon

/-- C3 (amended): if the group node's shortcut is non-empty and no earlier
sibling's shortcut is a prefix of it, an input exactly equal to the group's
shortcut returns `Partial` over the group's children, never `Complete`. -/
theorem resolve_group_exact_shortcut_amended (pre post : List Node) (g : Node)
    (c : List Node) (hne : g.shortcut ≠ [])
    (hpre : ∀ m ∈ pre, ¬ m.shortcut.isPrefixOf g.shortcut)
    (hc : g.children = some c) :
    resolve (pre ++ g :: post) g.shortcut = Resolved.Partial c := by
  rw [resolve_of_ne_nil _ _ hne, resolveGo_skip_all pre (g :: post) _ _ hpre]
  exact resolveGo_consumed_group_exact g post _ _ c
    (List.isPrefixOf_iff_prefix.mpr (List.prefix_refl _)) (List.drop_length _) hc

theorem resolve_group_exact_shortcut_amended_witness :
    resolve [terminalNode, webNode] webNode.shortcut =
      Resolved.Partial [chromeNode, firefoxNode] := by
  exact resolve_group_exact_shortcut_amended [terminalNode] [] webNode
    [chromeNode, firefoxNode] (by decide) (by decide) rfl

/-- C4 (counterexample): with siblings `"a"` (leaf) and `"ab"` (leaf), the
input `"ab"` — exactly the second leaf's shortcut — is first consumed by the
sibling `"a"` with a non-empty remainder, so `resolve` returns `Partial []`,
not `Complete` for that leaf, refuting the claim for arbitrary forests. -/
theorem resolve_leaf_exact_shortcut_cex :
    cexLeafAB.children = none ∧
      resolve [cexLeafA, cexLeafAB] cexLeafAB.shortcut = Resolved.Partial [] ∧
      resolve [cexLeafA, cexLeafAB] cexLeafAB.shortcut ≠ Resolved.Complete cexLeafAB := by
  have h1 : resolve [cexLeafA, cexLeafAB] cexLeafAB.shortcut = Resolved.Partial [] := by
    simp [resolve, resolveGo, cexLeafA, cexLeafAB, Node.shortcut, Node.children,
      List.isPrefixOf]
  refine ⟨rfl, h1, ?_⟩
  rw [h1]
  exact fun hcon => Resolved.noConfusion hcon

/-- C4 (amended): if the leaf's shortcut is non-empty and no earlier
sibling's shortcut is a prefix of it, an input exactly equal to the leaf's
shortcut returns `Complete` for that leaf, whatever the later siblings are
(they are never scanned). -/
theorem resolve_leaf_exact_shortcut_amended (pre post : List Node) (l : Node)
    (hne : l.shortcut ≠ []) (hl : l.children = none)
    (hpre : ∀ m ∈ pre, ¬ m.shortcut.isPrefixOf l.shortcut) :
    resolve (pre ++ l :: post) l.shortcut = Resolved.Complete l := by
  rw [resolve_of_ne_nil _ _ hne, resolveGo_skip_all pre (l :: post) _ _ hpre]
  exact resolveGo_consumed_leaf_exact l post _ _
    (List.isPrefixOf_iff_prefix.mpr (List.prefix_refl _)) (List.drop_length _) hl

theorem resolve_leaf_exact_shortcut_amended_witness :
    resolve [chromeNode, firefoxNode] firefoxNode.shortcut =
      Resolved.Complete firefoxNode := by
  exact resolve_leaf_exact_shortcut_amended [chromeNode] [] firefoxNode
    (by decide) rfl (by decide)

/-- C5: for every candidate sequence and non-empty input, once some
candidate's shortcut is a prefix of the input, the result is fixed by the
candidates up to and including the first such candidate: any two
continuations of the sequence after it produce the same `Resolved`. -/
theorem resolve_later_siblings_noninterference (pre post₁ post₂ : List Node)
    (n : Node) (cmd : List Char) (hcmd : cmd ≠ [])
    (hpre : ∀ m ∈ pre, ¬ m.shortcut.isPrefixOf cmd)
    (hn : n.shortcut.isPrefixOf cmd) :
    resolve (pre ++ n :: post₁) cmd = resolve (pre ++ n :: post₂) cmd := by
  rw [resolve_of_ne_nil _ _ hcmd, resolve_of_ne_nil _ _ hcmd,
    resolveGo_skip_all pre (n :: post₁) _ _ hpre,
    resolveGo_skip_all pre (n :: post₂) _ _ hpre]
  exact resolveGo_consumed_indep n post₁ post₂ cmd _ _ hn

theorem resolve_later_siblings_noninterference_witness :
    resolve [terminalNode, webNode] "webchr".toList =
      resolve [terminalNode, webNode, cexLeafA] "webchr".toList := by
  exact resolve_later_siblings_noninterference [terminalNode] [] [cexLeafA] webNode
    "webchr".toList (by decide) (by decide) (by decide)

/-- C6: for every candidate sequence, the empty input returns `Partial` of
all candidates at this level, unfiltered, in their original order. -/
theorem resolve_empty_input_all_candidates (nodes : List Node) :
    resolve nodes [] = Resolved.Partial nodes := by
  rw [resolve]
  simp

/-- C7: for every candidate sequence and non-empty input consumed by no
candidate's shortcut, `resolve` returns `Partial` of exactly the candidates
whose shortcut extends the input, in their original relative order — the
empty set when nothing matches. -/
theorem resolve_no_consume_filters (nodes : List Node) (cmd : List Char)
    (hcmd : cmd ≠ []) (h : ∀ m ∈ nodes, ¬ m.shortcut.isPrefixOf cmd) :
    resolve nodes cmd =
      Resolved.Partial (nodes.filter (fun m => cmd.isPrefixOf m.shortcut)) := by
  rw [resolve_of_ne_nil _ _ hcmd, resolveGo_no_consume nodes cmd [] h]
  simp

theorem resolve_no_consume_filters_witness :
    (resolve test_data ['t'] =
        Resolved.Partial (test_data.filter (fun m => ['t'].isPrefixOf m.shortcut))) ∧
      test_data.filter (fun m => ['t'].isPrefixOf m.shortcut) = [terminalNode] :=
  ⟨resolve_no_consume_filters test_data ['t'] (by decide) (by decide), rfl⟩

/-- C8: for every forest and input, when the first candidate whose shortcut
is a prefix of the input is a leaf and stripping its shortcut leaves a
non-empty remainder, `resolve` returns `Partial []` immediately, discarding
the prefix matches accumulated from earlier siblings. -/
theorem resolve_overshot_leaf_empty (pre post : List Node) (n : Node)
    (cmd : List Char) (hpre : ∀ m ∈ pre, ¬ m.shortcut.isPrefixOf cmd)
    (hn : n.shortcut.isPrefixOf cmd) (hch : n.children = none)
    (hdrop : cmd.drop n.shortcut.length ≠ []) :
    resolve (pre ++ n :: post) cmd = Resolved.Partial [] := by
  have hcmd : cmd ≠ [] := by
    intro hnil
    subst hnil
    simp at hdrop
  rw [resolve_of_ne_nil _ _ hcmd, resolveGo_skip_all pre (n :: post) _ _ hpre]
  exact resolveGo_consumed_leaf_more n post cmd _ hn hdrop hch

theorem resolve_overshot_leaf_empty_witness :
    resolve [cexLeafABC, cexLeafA] ['a', 'b'] = Resolved.Partial [] := by
  exact resolve_overshot_leaf_empty [cexLeafABC] [] cexLeafA ['a', 'b']
    (by decide) (by decide) rfl (by decide)

/-- C9: the `None => Resolved::Complete(n)` arm of the second `match` in
`resolve` is dead code: `resolve` agrees everywhere with `resolveAlt`, which
differs from it only by returning a different constructor from that arm, so
no execution ever reaches it — the earlier early return has already handled
`remaining` empty with no children. -/
theorem resolve_dead_arm_unreachable (nodes : List Node) (cmd : List Char) :
    resolve nodes cmd = resolveAlt nodes cmd := by
  by_cases h : cmd = []
  · subst h
    rw [resolve, resolveAlt]
    simp
  · rw [resolve_of_ne_nil nodes cmd h, resolveAlt_of_ne_nil nodes cmd h]
    exact resolveGo_eq_alt_aux (sizeOf nodes + 1) nodes cmd [] (by omega)

/-- C10: when the first candidate has an empty shortcut and no children,
every non-empty input is captured by it and overshoots, so `resolve`
returns `Partial []` regardless of the remaining candidates. -/
theorem resolve_empty_shortcut_leaf_captures (n : Node) (rest : List Node)
    (cmd : List Char) (hs : n.shortcut = []) (hch : n.children = none)
    (hcmd : cmd ≠ []) :
    resolve (n :: rest) cmd = Resolved.Partial [] := by
  rw [resolve_of_ne_nil _ _ hcmd]
  exact resolveGo_consumed_leaf_more n rest cmd []
    (by rw [hs]; exact List.isPrefixOf_iff_prefix.mpr List.nil_prefix)
    (by simpa [hs] using hcmd) hch

theorem resolve_empty_shortcut_leaf_captures_witness :
    resolve [cexLeafEmpty, terminalNode] ['t'] = Resolved.Partial [] := by
  exact resolve_empty_shortcut_leaf_captures cexLeafEmpty [terminalNode] ['t']
    rfl rfl (by decide)
